import Mathlib

/-!
Shallow embedding of `Code/slanggen/encoder.py`.

Python dictionaries are modelled as association lists in insertion order
(`dictGet` returns the first binding; `dictInsert` overwrites in place or
appends at the end, matching CPython dict semantics).  Python sets are
modelled as duplicate-free lists in insertion order (`setAdd`).  A lookup
that would raise `KeyError` returns `none`.  Numpy float vectors are
modelled as lists over an arbitrary coefficient type; the parts that do
real arithmetic (`norm_embed`, L2 normalization) are stated over `ℝ`.
-/

/-- Python `d[k]` on a dict modelled as an association list: first binding wins
(`none` models a `KeyError`). -/
def dictGet {β : Type _} : List (String × β) → String → Option β
  | [], _ => none
  | (k, v) :: rest, w => if k = w then some v else dictGet rest w

/-- Python `d[k] = v`: overwrite the existing binding in place, else append. -/
def dictInsert {β : Type _} : List (String × β) → String → β → List (String × β)
  | [], k, v => [(k, v)]
  | (k', v') :: rest, k, v =>
    if k' = k then (k, v) :: rest else (k', v') :: dictInsert rest k v

/-- Python `s.add(w)` on a set modelled as a duplicate-free list. -/
def setAdd (s : List String) (w : String) : List String :=
  if w ∈ s then s else s ++ [w]

/-- State of `FTEncoder` (raw-table word encoder): the word→vector dict, the
vocabulary set, the embedding dimension `E`, the tracking flag and the usage
cache.  Vectors are `List α`. -/
structure FTEncoder (α : Type _) where
  embeddings : List (String × List α)
  vocab : List String
  E : Nat
  do_cache : Bool
  cache : List String

/-- The dict-building loop of `FTEncoder.__init__`:
`for i in range(...): self.embeddings[word[i]] = embed[i]`. -/
def buildDict {β : Type _} (ps : List (String × β)) : List (String × β) :=
  ps.foldl (fun d p => dictInsert d p.1 p.2) []

/-- `FTEncoder.__init__(embed_file_name, do_cache)` after the two arrays
`word` and `embed` have been loaded: build the dict from the parallel arrays,
record the vocabulary set, set `E = embed.shape[1]` and initialise the cache
when tracking is on. -/
def FTEncoder.init {α : Type _} (word : List String) (embed : List (List α))
    (do_cache : Bool) : FTEncoder α :=
  { embeddings := buildDict (word.zip embed)
    vocab := word.eraseDups
    E := (embed.headD []).length
    do_cache := do_cache
    cache := [] }

/-- `FTEncoder.embed_word`: record the word in the cache when tracking is on
(this happens before the dict lookup), then look the word up.  Returns the
updated encoder state together with the lookup result. -/
def FTEncoder.embed_word {α : Type _} (e : FTEncoder α) (w : String) :
    FTEncoder α × Option (List α) :=
  let e' := if e.do_cache then { e with cache := setAdd e.cache w } else e
  (e', dictGet e'.embeddings w)

/-- A sequence of `embed_word` calls, keeping only the evolving state. -/
def lookupAll {α : Type _} (e : FTEncoder α) (ws : List String) : FTEncoder α :=
  ws.foldl (fun e w => (e.embed_word w).1) e

/-- Outcome of `FTEncoder.cache_embed(path)`: nothing written when tracking is
off, otherwise either the pickled mapping or a `KeyError` on some cached word
missing from the table. -/
inductive ExportResult (α : Type _) where
  | noWrite : ExportResult α
  | written : List (String × List α) → ExportResult α
  | keyError : String → ExportResult α
deriving DecidableEq

/-- The export loop `for word in self.cache: output[word] = self.embeddings[word]`,
failing with the offending word on a missing key. -/
def exportLoop {α : Type _} (emb : List (String × List α)) :
    List String → List (String × List α) → String ⊕ List (String × List α)
  | [], acc => Sum.inr acc
  | w :: rest, acc =>
    match dictGet emb w with
    | none => Sum.inl w
    | some v => exportLoop emb rest (dictInsert acc w v)

/-- `FTEncoder.cache_embed`: no-op without tracking, otherwise serialize
`{word: self.embeddings[word] for word in self.cache}`. -/
def FTEncoder.cache_embed {α : Type _} (e : FTEncoder α) : ExportResult α :=
  if e.do_cache then
    match exportLoop e.embeddings e.cache [] with
    | Sum.inl w => ExportResult.keyError w
    | Sum.inr d => ExportResult.written d
  else ExportResult.noWrite

/-- `FTEncoder.clear_cache`: reset the cache to the empty set (no-op without
tracking). -/
def FTEncoder.clear_cache {α : Type _} (e : FTEncoder α) : FTEncoder α :=
  if e.do_cache then { e with cache := [] } else e

/-- State of `FTCachedEncoder` (precomputed-cache word encoder). -/
structure FTCachedEncoder (α : Type _) where
  embeddings : List (String × List α)
  vocab : List String
  E : Nat

/-- `FTCachedEncoder.__init__` after unpickling the mapping:
`E = self.embeddings[list(self.embeddings.keys())[0]].shape[0]` indexes the
first key, so an empty mapping raises `IndexError` (modelled as `none`). -/
def FTCachedEncoder.init {α : Type _} (d : List (String × List α)) :
    Option (FTCachedEncoder α) :=
  match d with
  | [] => none
  | (k, _) :: _ =>
    some { embeddings := d
           vocab := (d.map Prod.fst).eraseDups
           E := ((dictGet d k).getD []).length }

/-- `FTCachedEncoder.embed_word`: a plain dict lookup. -/
def FTCachedEncoder.embed_word {α : Type _} (e : FTCachedEncoder α)
    (w : String) : Option (List α) :=
  dictGet e.embeddings w

/-- Squared Euclidean norm of a vector (`np.linalg.norm(vec) ** 2`). -/
def vecNormSq (v : List ℝ) : ℝ :=
  (v.map (fun x => x * x)).sum

/-- Euclidean norm `np.linalg.norm(vec)`. -/
noncomputable def vecNorm (v : List ℝ) : ℝ :=
  Real.sqrt (vecNormSq v)

/-- Componentwise `vec / np.linalg.norm(vec)`. -/
noncomputable def normVec (v : List ℝ) : List ℝ :=
  v.map (fun x => x / vecNorm v)

/-- `WordEncoder.norm_embed`: call `embed_word` (so the cache is still
updated), then divide the result by its Euclidean norm. -/
noncomputable def FTEncoder.norm_embed (e : FTEncoder ℝ) (w : String) :
    FTEncoder ℝ × Option (List ℝ) :=
  let p := e.embed_word w
  (p.1, p.2.map normVec)

/-- One record of `dataset.slang_data`: its `def_sent` field. -/
structure SlangEntry where
  def_sent : String

/-- One record of `conv_data[word].definitions`; `defn` models the record's
`def` text field (`def` is a Lean keyword). -/
structure DefRecord where
  defn : String

/-- The `conv_data[word]` object with its `definitions` list. -/
structure ConvEntry where
  definitions : List DefRecord

/-- The dataset object consumed by `SenseEncoder.encode_dataset`. -/
structure Dataset where
  slang_data : List SlangEntry
  vocab : List String
  conv_data : List (String × ConvEntry)

/-- The `slang_ind` split-index structure. -/
structure SlangInd where
  train : List Nat
  dev : List Nat
  test : List Nat

/-- `' '.join(simple_preprocess(s))` with the external preprocessing utility
abstracted as `pre`. -/
def joinPre (pre : String → List String) (s : String) : String :=
  String.intercalate " " (pre s)

/-- The inner helper `collect_slang_sents(dataset, ind)`; an out-of-range
index raises (modelled as `none`). -/
def collect_slang_sents (pre : String → List String) (dataset : Dataset) :
    List Nat → Option (List String)
  | [] => some []
  | i :: rest =>
    match dataset.slang_data[i]? with
    | none => none
    | some entry =>
      match collect_slang_sents pre dataset rest with
      | none => none
      | some l => some (joinPre pre entry.def_sent :: l)

/-- The "standard" sentence loop of `encode_dataset`: for every vocabulary
word in order, for every definition record in stored order, collect the
normalized definition text; a vocabulary word missing from `conv_data`
raises (modelled as `none`). -/
def standardSents (pre : String → List String) (dataset : Dataset) :
    List String → Option (List String)
  | [] => some []
  | w :: ws =>
    match dictGet dataset.conv_data w with
    | none => none
    | some ce =>
      match standardSents pre dataset ws with
      | none => none
      | some rest =>
        some ((ce.definitions.map (fun d => joinPre pre d.defn)) ++ rest)

/-- `SenseEncoder.encode_dataset(dataset, slang_ind, encode_test)`: the
abstract `encode_sentences` is a parameter `enc`.  The result dict is built
in insertion order train, dev, (test,) standard. -/
def encode_dataset {V : Type _} (enc : List String → List V)
    (pre : String → List String) (dataset : Dataset) (slang_ind : SlangInd)
    (encode_test : Bool) : Option (List (String × List V)) :=
  (collect_slang_sents pre dataset slang_ind.train).bind (fun trs =>
    (collect_slang_sents pre dataset slang_ind.dev).bind (fun dvs =>
      (if encode_test then
        (collect_slang_sents pre dataset slang_ind.test).map
          (fun ts => [("test", enc ts)])
      else some []).bind (fun testPart =>
        (standardSents pre dataset dataset.vocab).map (fun std =>
          [("train", enc trs), ("dev", enc dvs)] ++ testPart
            ++ [("standard", enc std)]))))

/-- State of `SBertEncoder`: the adapter's identifying name and the name the
external `SentenceTransformer` model was loaded with. -/
structure SBertEncoder where
  name : String
  sbert_model_name : String

/-- `SBertEncoder.__init__(sbert_model_name=None, name=None)`:
when no model name is given, the model defaults to
`'bert-base-nli-mean-tokens'` and the identifying name to `'sbert_base'`
(the `name` argument is not consulted in that branch); otherwise the
identifying name is `name` if supplied, else the model name. -/
def SBertEncoder.init (sbert_model_name : Option String)
    (name : Option String) : SBertEncoder :=
  match sbert_model_name with
  | none =>
    { name := "sbert_base", sbert_model_name := "bert-base-nli-mean-tokens" }
  | some m =>
    { name := match name with
              | some n => n
              | none => m
      sbert_model_name := m }

/-- A concrete sentence encoder for witnesses: one zero per input sentence. -/
def encW : List String → List Nat :=
  fun l => l.map (fun _ => 0)

/-- A concrete preprocessing function for witnesses. -/
def preW : String → List String :=
  fun s => [s]

/-- A concrete dataset for witnesses: one slang record, one vocabulary word
with two definition records. -/
def dsW : Dataset :=
  { slang_data := [⟨"s"⟩]
    vocab := ["w"]
    conv_data := [("w", ⟨[⟨"da"⟩, ⟨"db"⟩]⟩)] }

/-- Concrete split indices for witnesses. -/
def indW : SlangInd :=
  ⟨[0], [0], [0]⟩

lemma dictGet_dictInsert {β : Type _} (d : List (String × β)) (k : String)
    (v : β) (w : String) :
    dictGet (dictInsert d k v) w = if k = w then some v else dictGet d w := by
  induction d with
  | nil => simp [dictInsert, dictGet]
  | cons p rest ih =>
    obtain ⟨k', v'⟩ := p
    by_cases hk : k' = k
    · subst hk
      by_cases hw : k' = w <;> simp [dictInsert, dictGet, hw]
    · by_cases hw : k' = w
      · subst hw
        have hkw : ¬k = k' := fun h => hk h.symm
        simp [dictInsert, dictGet, hk, hkw]
      · simp [dictInsert, dictGet, hk, hw, ih]

lemma dictInsert_of_get_none {β : Type _} (d : List (String × β)) (k : String)
    (v : β) (h : dictGet d k = none) : dictInsert d k v = d ++ [(k, v)] := by
  induction d with
  | nil => simp [dictInsert]
  | cons p rest ih =>
    obtain ⟨k', v'⟩ := p
    by_cases hk : k' = k
    · rw [dictGet, if_pos hk] at h
      exact absurd h (by simp)
    · rw [dictGet, if_neg hk] at h
      simp [dictInsert, hk, ih h]

lemma dictGet_eq_none_iff {β : Type _} (d : List (String × β)) (w : String) :
    dictGet d w = none ↔ w ∉ d.map Prod.fst := by
  induction d with
  | nil => simp [dictGet]
  | cons p rest ih =>
    obtain ⟨k, v⟩ := p
    by_cases hk : k = w
    · subst hk
      simp [dictGet]
    · simp [dictGet, hk, ih, Ne.symm hk]

lemma dictGet_append {β : Type _} (d d' : List (String × β)) (w : String) :
    dictGet (d ++ d') w =
      match dictGet d w with
      | some v => some v
      | none => dictGet d' w := by
  induction d with
  | nil => simp [dictGet]
  | cons p rest ih =>
    obtain ⟨k, v⟩ := p
    by_cases hk : k = w
    · simp [dictGet, hk]
    · simp [dictGet, hk, ih]

lemma mem_setAdd (s : List String) (u w : String) :
    w ∈ setAdd s u ↔ w ∈ s ∨ w = u := by
  unfold setAdd
  by_cases hu : u ∈ s
  · simp only [if_pos hu]
    constructor
    · exact Or.inl
    · rintro (h | rfl)
      · exact h
      · exact hu
  · simp [if_neg hu]

lemma nodup_setAdd (s : List String) (u : String) (h : s.Nodup) :
    (setAdd s u).Nodup := by
  unfold setAdd
  by_cases hu : u ∈ s
  · simpa [if_pos hu]
  · simp [if_neg hu, List.nodup_append, h, hu]

lemma mem_foldl_setAdd (ws : List String) :
    ∀ (s : List String) (w : String),
      w ∈ ws.foldl setAdd s ↔ w ∈ s ∨ w ∈ ws := by
  induction ws with
  | nil => simp
  | cons u rest ih =>
    intro s w
    simp only [List.foldl_cons, ih, mem_setAdd, List.mem_cons]
    tauto

lemma nodup_foldl_setAdd (ws : List String) :
    ∀ (s : List String), s.Nodup → (ws.foldl setAdd s).Nodup := by
  induction ws with
  | nil => exact fun s hs => hs
  | cons u rest ih =>
    intro s hs
    exact ih _ (nodup_setAdd s u hs)

lemma embed_word_fst_embeddings {α : Type _} (e : FTEncoder α) (w : String) :
    (e.embed_word w).1.embeddings = e.embeddings := by
  unfold FTEncoder.embed_word
  by_cases h : e.do_cache <;> simp [h]

lemma embed_word_fst_do_cache {α : Type _} (e : FTEncoder α) (w : String) :
    (e.embed_word w).1.do_cache = e.do_cache := by
  unfold FTEncoder.embed_word
  by_cases h : e.do_cache <;> simp [h]

lemma embed_word_snd {α : Type _} (e : FTEncoder α) (w : String) :
    (e.embed_word w).2 = dictGet e.embeddings w := by
  unfold FTEncoder.embed_word
  by_cases h : e.do_cache <;> simp [h]

lemma embed_word_fst_cache {α : Type _} (e : FTEncoder α) (w : String)
    (h : e.do_cache = true) :
    (e.embed_word w).1.cache = setAdd e.cache w := by
  unfold FTEncoder.embed_word
  simp [h]

lemma lookupAll_embeddings {α : Type _} (ws : List String) :
    ∀ (e : FTEncoder α), (lookupAll e ws).embeddings = e.embeddings := by
  induction ws with
  | nil => exact fun e => rfl
  | cons w rest ih =>
    intro e
    show (lookupAll (e.embed_word w).1 rest).embeddings = e.embeddings
    rw [ih, embed_word_fst_embeddings]

lemma lookupAll_do_cache {α : Type _} (ws : List String) :
    ∀ (e : FTEncoder α), (lookupAll e ws).do_cache = e.do_cache := by
  induction ws with
  | nil => exact fun e => rfl
  | cons w rest ih =>
    intro e
    show (lookupAll (e.embed_word w).1 rest).do_cache = e.do_cache
    rw [ih, embed_word_fst_do_cache]

lemma lookupAll_cache {α : Type _} (ws : List String) :
    ∀ (e : FTEncoder α), e.do_cache = true →
      (lookupAll e ws).cache = ws.foldl setAdd e.cache := by
  induction ws with
  | nil => exact fun e _ => rfl
  | cons w rest ih =>
    intro e hdc
    show (lookupAll (e.embed_word w).1 rest).cache = _
    rw [ih _ (by rw [embed_word_fst_do_cache]; exact hdc),
      embed_word_fst_cache e w hdc]
    rfl

lemma exportLoop_success {α : Type _} (emb : List (String × List α)) :
    ∀ (ws : List String) (acc : List (String × List α)),
      ws.Nodup → (∀ w ∈ ws, dictGet acc w = none) →
      (∀ w ∈ ws, (dictGet emb w).isSome) →
      ∃ d, exportLoop emb ws acc = Sum.inr d
        ∧ d.map Prod.fst = acc.map Prod.fst ++ ws
        ∧ (∀ w ∈ ws, dictGet d w = dictGet emb w)
        ∧ (∀ w, w ∉ ws → dictGet d w = dictGet acc w) := by
  intro ws
  induction ws with
  | nil =>
    intro acc _ _ _
    exact ⟨acc, rfl, by simp, by simp, fun w _ => rfl⟩
  | cons w rest ih =>
    intro acc hnd hacc hemb
    obtain ⟨v, hv⟩ := Option.isSome_iff_exists.mp (hemb w (by simp))
    have hwrest : w ∉ rest := (List.nodup_cons.mp hnd).1
    have haccw : dictGet acc w = none := hacc w (by simp)
    have hrest : ∀ u ∈ rest, dictGet (dictInsert acc w v) u = none := by
      intro u hu
      rw [dictGet_dictInsert]
      have : w ≠ u := fun h => hwrest (h ▸ hu)
      simp [this, hacc u (by simp [hu])]
    obtain ⟨d, hd, hkeys, hmem, hout⟩ :=
      ih (dictInsert acc w v) (List.nodup_cons.mp hnd).2 hrest
        (fun u hu => hemb u (by simp [hu]))
    refine ⟨d, ?_, ?_, ?_, ?_⟩
    · show exportLoop emb (w :: rest) acc = Sum.inr d
      rw [exportLoop, hv]
      exact hd
    · rw [hkeys, dictInsert_of_get_none acc w v haccw]
      simp
    · intro u hu
      rcases List.mem_cons.mp hu with rfl | hu
      · rw [hout u hwrest, dictGet_dictInsert, if_pos rfl, hv]
      · exact hmem u hu
    · intro u hu
      have hne : ¬w = u := fun h => hu (by simp [h])
      rw [hout u (fun h => hu (by simp [h])), dictGet_dictInsert, if_neg hne]

lemma exportLoop_values {α : Type _} (emb : List (String × List α)) :
    ∀ (ws : List String) (acc d : List (String × List α)),
      exportLoop emb ws acc = Sum.inr d →
      ∀ (w : String) (v : List α), dictGet d w = some v →
        dictGet emb w = some v ∨ dictGet acc w = some v := by
  intro ws
  induction ws with
  | nil =>
    intro acc d h w v hv
    cases h
    exact Or.inr hv
  | cons u rest ih =>
    intro acc d h w v hv
    rw [exportLoop] at h
    cases hu : dictGet emb u with
    | none => rw [hu] at h; cases h
    | some vu =>
      rw [hu] at h
      rcases ih (dictInsert acc u vu) d h w v hv with hl | hr
      · exact Or.inl hl
      · rw [dictGet_dictInsert] at hr
        by_cases huw : u = w
        · subst huw
          rw [if_pos rfl] at hr
          exact Or.inl (hu.trans hr)
        · rw [if_neg huw] at hr
          exact Or.inr hr

lemma exportLoop_all_present {α : Type _} (emb : List (String × List α)) :
    ∀ (ws : List String) (acc : List (String × List α)),
      (∀ w ∈ ws, (dictGet emb w).isSome) →
      ∃ d, exportLoop emb ws acc = Sum.inr d := by
  intro ws
  induction ws with
  | nil => exact fun acc _ => ⟨acc, rfl⟩
  | cons u rest ih =>
    intro acc h
    obtain ⟨v, hv⟩ := Option.isSome_iff_exists.mp (h u (by simp))
    obtain ⟨d, hd⟩ := ih (dictInsert acc u v) (fun w hw => h w (by simp [hw]))
    refine ⟨d, ?_⟩
    rw [exportLoop, hv]
    exact hd

lemma exportLoop_append {α : Type _} (emb : List (String × List α)) :
    ∀ (ws ws' : List String) (acc : List (String × List α)),
      exportLoop emb (ws ++ ws') acc =
        match exportLoop emb ws acc with
        | Sum.inl u => Sum.inl u
        | Sum.inr d => exportLoop emb ws' d := by
  intro ws
  induction ws with
  | nil => intro ws' acc; rfl
  | cons u rest ih =>
    intro ws' acc
    show exportLoop emb (u :: (rest ++ ws')) acc = _
    rw [exportLoop, exportLoop]
    cases dictGet emb u with
    | none => rfl
    | some v => exact ih ws' (dictInsert acc u v)

lemma dictGet_buildDict_mem {β : Type _} (ps : List (String × β)) :
    ∀ (acc : List (String × β)) (w : String) (v : β),
      dictGet (ps.foldl (fun d p => dictInsert d p.1 p.2) acc) w = some v →
      (w, v) ∈ ps ∨ dictGet acc w = some v := by
  induction ps with
  | nil => exact fun acc w v h => Or.inr h
  | cons p rest ih =>
    intro acc w v h
    rcases ih (dictInsert acc p.1 p.2) w v h with hl | hr
    · exact Or.inl (by simp [hl])
    · rw [dictGet_dictInsert] at hr
      by_cases hp : p.1 = w
      · rw [if_pos hp] at hr
        refine Or.inl ?_
        have : (w, v) = p := by
          cases hr
          exact Prod.ext hp.symm rfl
        simp [this]
      · rw [if_neg hp] at hr
        exact Or.inr hr

lemma vecNormSq_nonneg (v : List ℝ) : 0 ≤ vecNormSq v := by
  refine List.sum_nonneg ?_
  intro x hx
  obtain ⟨y, _, rfl⟩ := List.mem_map.mp hx
  exact mul_self_nonneg y

lemma vecNormSq_map_div (v : List ℝ) (c : ℝ) :
    vecNormSq (v.map (fun x => x / c)) = vecNormSq v / (c * c) := by
  induction v with
  | nil => simp [vecNormSq]
  | cons x rest ih =>
    simp only [vecNormSq, List.map_cons, List.map_map, List.sum_cons] at ih ⊢
    rw [ih, div_mul_div_comm, div_add_div_same]

lemma vecNormSq_normVec (v : List ℝ) (h : vecNorm v ≠ 0) :
    vecNormSq (normVec v) = 1 := by
  have h0 : vecNormSq v ≠ 0 := by
    intro he
    exact h (by rw [vecNorm, he, Real.sqrt_zero])
  rw [normVec, vecNormSq_map_div, vecNorm,
    Real.mul_self_sqrt (vecNormSq_nonneg v), div_self h0]

lemma vecNorm_normVec (v : List ℝ) (h : vecNorm v ≠ 0) :
    vecNorm (normVec v) = 1 := by
  rw [vecNorm, vecNormSq_normVec v h, Real.sqrt_one]

lemma standardSents_eq (pre : String → List String) (ds : Dataset) :
    ∀ (ws : List String) (sents : List String),
      standardSents pre ds ws = some sents →
      sents = ws.flatMap (fun w =>
        ((dictGet ds.conv_data w).getD ⟨[]⟩).definitions.map
          (fun d => joinPre pre d.defn)) := by
  intro ws
  induction ws with
  | nil =>
    intro sents h
    cases h
    rfl
  | cons w rest ih =>
    intro sents h
    rw [standardSents] at h
    cases hc : dictGet ds.conv_data w with
    | none => rw [hc] at h; cases h
    | some ce =>
      rw [hc] at h
      cases hr : standardSents pre ds rest with
      | none => rw [hr] at h; cases h
      | some restSents =>
        rw [hr] at h
        cases h
        rw [List.flatMap_cons, ih restSents hr, hc]
        rfl

lemma length_flatMap_defs (pre : String → List String) (ds : Dataset)
    (ws : List String) :
    (ws.flatMap (fun w =>
      ((dictGet ds.conv_data w).getD ⟨[]⟩).definitions.map
        (fun d => joinPre pre d.defn))).length =
    (ws.map (fun w =>
      ((dictGet ds.conv_data w).getD ⟨[]⟩).definitions.length)).sum := by
  induction ws with
  | nil => rfl
  | cons w rest ih =>
    rw [List.flatMap_cons, List.length_append, List.map_cons, List.sum_cons,
      List.length_map, ih]

lemma encode_dataset_destruct {V : Type _} (enc : List String → List V)
    (pre : String → List String) (ds : Dataset) (ind : SlangInd) (b : Bool)
    (res : List (String × List V))
    (h : encode_dataset enc pre ds ind b = some res) :
    ∃ trs dvs testPart std,
      collect_slang_sents pre ds ind.train = some trs ∧
      collect_slang_sents pre ds ind.dev = some dvs ∧
      (if b then ∃ ts, collect_slang_sents pre ds ind.test = some ts ∧
        testPart = [("test", enc ts)] else testPart = []) ∧
      standardSents pre ds ds.vocab = some std ∧
      res = [("train", enc trs), ("dev", enc dvs)] ++ testPart
        ++ [("standard", enc std)] := by
  unfold encode_dataset at h
  rw [Option.bind_eq_some] at h
  obtain ⟨trs, htr, h⟩ := h
  rw [Option.bind_eq_some] at h
  obtain ⟨dvs, hdv, h⟩ := h
  rw [Option.bind_eq_some] at h
  obtain ⟨testPart, htp, h⟩ := h
  rw [Option.map_eq_some'] at h
  obtain ⟨std, hstd, h⟩ := h
  refine ⟨trs, dvs, testPart, std, htr, hdv, ?_, hstd, h.symm⟩
  cases b with
  | false =>
    rw [if_neg Bool.false_ne_true] at htp ⊢
    exact (Option.some_inj.mp htp).symm
  | true =>
    rw [if_pos rfl] at htp ⊢
    rw [Option.map_eq_some'] at htp
    obtain ⟨ts, hts, htp⟩ := htp
    exact ⟨ts, hts, htp.symm⟩

/-- C1 (counterexample): the claim asserts that a caller-supplied display
name given without a model name becomes the adapter's identifying name; in
the code the `sbert_model_name is None` branch sets `self.name = 'sbert_base'`
without consulting `name`, so for `SBertEncoder(name='custom')` the
identifying name is `'sbert_base'`, not `'custom'`. -/
theorem sbert_name_claim_counterexample :
    (SBertEncoder.init none (some "custom")).name = "sbert_base" ∧
    (SBertEncoder.init none (some "custom")).name ≠ "custom" := by
  exact ⟨rfl, by decide⟩

/-- C1 (amended): when no explicit model name is supplied, the model name
defaults to `'bert-base-nli-mean-tokens'` and the identifying name is always
`'sbert_base'`, even when a display name is supplied; a caller-supplied
display name takes effect only together with an explicit model name, and
with a model name but no display name the identifying name is the model
name. -/
theorem sbert_default_naming :
    (∀ n : Option String,
      (SBertEncoder.init none n).sbert_model_name = "bert-base-nli-mean-tokens"
      ∧ (SBertEncoder.init none n).name = "sbert_base") ∧
    (∀ m n : String,
      (SBertEncoder.init (some m) (some n)).name = n ∧
      (SBertEncoder.init (some m) (some n)).sbert_model_name = m) ∧
    (∀ m : String, (SBertEncoder.init (some m) none).name = m) :=
  ⟨fun _ => ⟨rfl, rfl⟩, fun _ _ => ⟨rfl, rfl⟩, fun _ => rfl⟩

/-- C3: in both table variants, `embed_word` of a word absent from the
loaded table fails with a missing-key error (`none`), and `embed_word` of a
present word returns the table's vector for that word without error. -/
theorem embed_word_missing_key {α : Type _} (e : FTEncoder α)
    (c : FTCachedEncoder α) (w : String) :
    (dictGet e.embeddings w = none → (e.embed_word w).2 = none) ∧
    (∀ v, dictGet e.embeddings w = some v → (e.embed_word w).2 = some v) ∧
    (dictGet c.embeddings w = none → c.embed_word w = none) ∧
    (∀ v, dictGet c.embeddings w = some v → c.embed_word w = some v) := by
  refine ⟨?_, ?_, ?_, ?_⟩
  · intro h
    rw [embed_word_snd, h]
  · intro v h
    rw [embed_word_snd, h]
  · intro h
    rw [FTCachedEncoder.embed_word, h]
  · intro v h
    rw [FTCachedEncoder.embed_word, h]

/-- C3 witness: concrete one-word tables, checked at a missing and at a
present word. -/
theorem embed_word_missing_key_witness :
    ((FTEncoder.mk [("a", [(1 : Int)])] ["a"] 1 false []).embed_word "zz").2
      = none ∧
    ((FTEncoder.mk [("a", [(1 : Int)])] ["a"] 1 false []).embed_word "a").2
      = some [1] ∧
    (FTCachedEncoder.mk [("a", [(1 : Int)])] ["a"] 1).embed_word "zz" = none ∧
    (FTCachedEncoder.mk [("a", [(1 : Int)])] ["a"] 1).embed_word "a"
      = some [1] :=
  ⟨(embed_word_missing_key (FTEncoder.mk [("a", [(1 : Int)])] ["a"] 1 false [])
      (FTCachedEncoder.mk [("a", [(1 : Int)])] ["a"] 1) "zz").1 (by decide),
   (embed_word_missing_key (FTEncoder.mk [("a", [(1 : Int)])] ["a"] 1 false [])
      (FTCachedEncoder.mk [("a", [(1 : Int)])] ["a"] 1) "a").2.1 [1] (by decide),
   (embed_word_missing_key (FTEncoder.mk [("a", [(1 : Int)])] ["a"] 1 false [])
      (FTCachedEncoder.mk [("a", [(1 : Int)])] ["a"] 1) "zz").2.2.1 (by decide),
   (embed_word_missing_key (FTEncoder.mk [("a", [(1 : Int)])] ["a"] 1 false [])
      (FTCachedEncoder.mk [("a", [(1 : Int)])] ["a"] 1) "a").2.2.2 [1]
      (by decide)⟩

/-- C8: for a raw-table encoder built from parallel arrays whose embedding
matrix is rectangular with row length `E` (the dimension recorded by the
constructor), every word present in the table maps to a vector of length
`E`. -/
theorem ftenc_fixed_dimension {α : Type _} (word : List String)
    (embed : List (List α)) (dc : Bool)
    (hrect : ∀ r ∈ embed, r.length = (FTEncoder.init word embed dc).E)
    (w : String) (v : List α)
    (hv : dictGet (FTEncoder.init word embed dc).embeddings w = some v) :
    v.length = (FTEncoder.init word embed dc).E := by
  have hmem := dictGet_buildDict_mem (word.zip embed) [] w v hv
  rcases hmem with hm | hnone
  · exact hrect v (List.of_mem_zip hm).2
  · rw [dictGet] at hnone
    cases hnone

/-- C8 witness: a concrete 2×2 table. -/
theorem ftenc_fixed_dimension_witness :
    ([(1 : Int), 2]).length = (FTEncoder.init ["a", "b"] [[1, 2], [3, 4]] false).E :=
  ftenc_fixed_dimension ["a", "b"] [[(1 : Int), 2], [3, 4]] false (by decide)
    "a" [1, 2] (by decide)

/-- C10: the precomputed-cache constructor indexes the first key of the
loaded mapping to infer `E`, so it succeeds exactly when the mapping is
nonempty; on an empty mapping the indexing raises. -/
theorem ftcached_init_nonempty {α : Type _} (d : List (String × List α)) :
    (FTCachedEncoder.init d).isSome ↔ d ≠ [] := by
  cases d with
  | nil => simp [FTCachedEncoder.init]
  | cons p rest =>
    obtain ⟨k, v⟩ := p
    simp [FTCachedEncoder.init]

/-- C10 witness: construction succeeds on a concrete singleton mapping. -/
theorem ftcached_init_nonempty_witness :
    (FTCachedEncoder.init [("a", [(1 : Int)])]).isSome :=
  (ftcached_init_nonempty [("a", [(1 : Int)])]).mpr (by decide)

/-- C7: for a word present in the table whose raw vector has nonzero
Euclidean norm, `norm_embed` returns the raw vector divided by its Euclidean
norm, and that result has Euclidean norm 1; for a word absent from the table
it fails with the same missing-key error as `embed_word`. -/
theorem norm_embed_unit_norm (e : FTEncoder ℝ) (w : String) :
    (dictGet e.embeddings w = none → (e.norm_embed w).2 = none) ∧
    (∀ v, dictGet e.embeddings w = some v → vecNorm v ≠ 0 →
      (e.norm_embed w).2 = some (normVec v) ∧ vecNorm (normVec v) = 1) := by
  constructor
  · intro h
    show ((e.embed_word w).2.map normVec) = none
    rw [embed_word_snd, h]
    rfl
  · intro v hv hn
    refine ⟨?_, vecNorm_normVec v hn⟩
    show ((e.embed_word w).2.map normVec) = some (normVec v)
    rw [embed_word_snd, hv]
    rfl

/-- C7 witness: the table maps `"a"` to `[3, 4]`, whose norm is `√25 ≠ 0`. -/
theorem norm_embed_unit_norm_witness :
    ((FTEncoder.mk [("a", [(3 : ℝ), 4])] ["a"] 2 false []).norm_embed "a").2
      = some (normVec [(3 : ℝ), 4]) ∧ vecNorm (normVec [(3 : ℝ), 4]) = 1 := by
  refine (norm_embed_unit_norm
    (FTEncoder.mk [("a", [(3 : ℝ), 4])] ["a"] 2 false []) "a").2
    [(3 : ℝ), 4] ?_ ?_
  · simp [dictGet]
  · have h25 : vecNormSq [(3 : ℝ), 4] = 25 := by
      norm_num [vecNormSq]
    rw [vecNorm, h25]
    exact ne_of_gt (Real.sqrt_pos.mpr (by norm_num))

/-- C9: with tracking enabled, a lookup of a word absent from the table
both fails with a missing-key error and leaves the word in the cache (the
word is recorded before the lookup), and — when every previously cached word
is present in the table — a subsequent cache export fails with a missing-key
error on exactly that word. -/
theorem embed_word_cache_on_failure {α : Type _} (e : FTEncoder α)
    (w : String) (hdc : e.do_cache = true)
    (habs : dictGet e.embeddings w = none)
    (hpres : ∀ u ∈ e.cache, (dictGet e.embeddings u).isSome) :
    (e.embed_word w).2 = none ∧ w ∈ (e.embed_word w).1.cache ∧
    (e.embed_word w).1.cache_embed = ExportResult.keyError w := by
  have h2 : (e.embed_word w).2 = none := by
    rw [embed_word_snd, habs]
  have hcache : (e.embed_word w).1.cache = setAdd e.cache w :=
    embed_word_fst_cache e w hdc
  have hwnot : w ∉ e.cache := by
    intro hw
    have := hpres w hw
    rw [habs] at this
    exact absurd this (by simp)
  have hsa : setAdd e.cache w = e.cache ++ [w] := by
    unfold setAdd
    rw [if_neg hwnot]
  have hdc' : (e.embed_word w).1.do_cache = true := by
    rw [embed_word_fst_do_cache]
    exact hdc
  have hemb' : (e.embed_word w).1.embeddings = e.embeddings :=
    embed_word_fst_embeddings e w
  obtain ⟨d, hd⟩ := exportLoop_all_present e.embeddings e.cache [] hpres
  have hexp : exportLoop ((e.embed_word w).1.embeddings)
      ((e.embed_word w).1.cache) [] = Sum.inl w := by
    rw [hemb', hcache, hsa, exportLoop_append, hd]
    show exportLoop e.embeddings [w] d = Sum.inl w
    rw [exportLoop, habs]
  refine ⟨h2, ?_, ?_⟩
  · rw [hcache, hsa]
    simp
  · unfold FTEncoder.cache_embed
    rw [hdc', hexp]
    rfl

/-- C9 witness: the table holds only `"a"`, the cache already holds `"a"`,
and the absent word `"zz"` is looked up. -/
theorem embed_word_cache_on_failure_witness :
    ((FTEncoder.mk [("a", [(1 : Int)])] ["a"] 1 true ["a"]).embed_word
      "zz").2 = none ∧
    "zz" ∈ ((FTEncoder.mk [("a", [(1 : Int)])] ["a"] 1 true ["a"]).embed_word
      "zz").1.cache ∧
    ((FTEncoder.mk [("a", [(1 : Int)])] ["a"] 1 true ["a"]).embed_word
      "zz").1.cache_embed = ExportResult.keyError "zz" :=
  embed_word_cache_on_failure
    (FTEncoder.mk [("a", [(1 : Int)])] ["a"] 1 true ["a"]) "zz" rfl
    (by decide) (by decide)

/-- C2: for a tracking-enabled encoder with an initially empty cache, after
any sequence of successful `embed_word` lookups the cache is exactly the set
of distinct words looked up; exporting then writes a mapping whose keys are
exactly the cached words, each bound to its vector from the table; and
clearing the cache followed by an export writes an empty mapping. -/
theorem ftenc_cache_tracking_export {α : Type _} (e0 : FTEncoder α)
    (ws : List String) (hdc : e0.do_cache = true) (hc0 : e0.cache = [])
    (hpres : ∀ w ∈ ws, (dictGet e0.embeddings w).isSome) :
    ((lookupAll e0 ws).cache.Nodup ∧
      ∀ w, w ∈ (lookupAll e0 ws).cache ↔ w ∈ ws) ∧
    (∃ d, (lookupAll e0 ws).cache_embed = ExportResult.written d ∧
      (∀ w, w ∈ d.map Prod.fst ↔ w ∈ ws) ∧
      (∀ w ∈ ws, dictGet d w = dictGet e0.embeddings w)) ∧
    (lookupAll e0 ws).clear_cache.cache_embed = ExportResult.written [] := by
  have hcache : (lookupAll e0 ws).cache = ws.foldl setAdd [] := by
    rw [lookupAll_cache ws e0 hdc, hc0]
  have hnd : (lookupAll e0 ws).cache.Nodup := by
    rw [hcache]
    exact nodup_foldl_setAdd ws [] List.nodup_nil
  have hmem : ∀ w, w ∈ (lookupAll e0 ws).cache ↔ w ∈ ws := by
    intro w
    rw [hcache, mem_foldl_setAdd]
    simp
  have hembs : (lookupAll e0 ws).embeddings = e0.embeddings :=
    lookupAll_embeddings ws e0
  have hdc2 : (lookupAll e0 ws).do_cache = true := by
    rw [lookupAll_do_cache]
    exact hdc
  obtain ⟨d, hd, hkeys, hvals, _⟩ :=
    exportLoop_success e0.embeddings (lookupAll e0 ws).cache [] hnd
      (fun w _ => rfl) (fun w hw => hpres w ((hmem w).mp hw))
  refine ⟨⟨hnd, hmem⟩, ⟨d, ?_, ?_, ?_⟩, ?_⟩
  · unfold FTEncoder.cache_embed
    rw [hdc2, hembs, hd]
    rfl
  · intro w
    rw [hkeys]
    simp only [List.map_nil, List.nil_append]
    exact hmem w
  · intro w hw
    exact hvals w ((hmem w).mpr hw)
  · unfold FTEncoder.clear_cache
    rw [hdc2, if_pos rfl]
    unfold FTEncoder.cache_embed
    rfl

/-- C2 witness: looking up `["a", "b", "a"]` in a two-word table. -/
theorem ftenc_cache_tracking_export_witness :
    ((lookupAll (FTEncoder.mk [("a", [(1 : Int)]), ("b", [2])] ["a", "b"] 1
        true []) ["a", "b", "a"]).cache.Nodup ∧
      ∀ w, w ∈ (lookupAll (FTEncoder.mk [("a", [(1 : Int)]), ("b", [2])]
        ["a", "b"] 1 true []) ["a", "b", "a"]).cache ↔ w ∈ ["a", "b", "a"]) ∧
    (∃ d, (lookupAll (FTEncoder.mk [("a", [(1 : Int)]), ("b", [2])] ["a", "b"]
        1 true []) ["a", "b", "a"]).cache_embed = ExportResult.written d ∧
      (∀ w, w ∈ d.map Prod.fst ↔ w ∈ ["a", "b", "a"]) ∧
      (∀ w ∈ ["a", "b", "a"], dictGet d w =
        dictGet (FTEncoder.mk [("a", [(1 : Int)]), ("b", [2])] ["a", "b"] 1
          true []).embeddings w)) ∧
    (lookupAll (FTEncoder.mk [("a", [(1 : Int)]), ("b", [2])] ["a", "b"] 1
      true []) ["a", "b", "a"]).clear_cache.cache_embed
      = ExportResult.written [] :=
  ftenc_cache_tracking_export
    (FTEncoder.mk [("a", [(1 : Int)]), ("b", [2])] ["a", "b"] 1 true [])
    ["a", "b", "a"] rfl rfl (by decide)

/-- C6 (round-trip): if a tracking-enabled encoder's export succeeds and
writes the mapping `d`, then every word bound in `d` carries exactly the
original table's vector, and constructing a precomputed-cache encoder from
`d` succeeds and its `embed_word` returns that same vector. -/
theorem cache_export_roundtrip {α : Type _} (e : FTEncoder α)
    (d : List (String × List α)) (hexp : e.cache_embed = ExportResult.written d)
    (w : String) (v : List α) (hw : dictGet d w = some v) :
    dictGet e.embeddings w = some v ∧
    ∃ c, FTCachedEncoder.init d = some c ∧ c.embed_word w = some v := by
  unfold FTEncoder.cache_embed at hexp
  cases hdc : e.do_cache with
  | false =>
    rw [hdc] at hexp
    exact absurd hexp (by simp)
  | true =>
    rw [hdc] at hexp
    simp only [if_true] at hexp
    cases hel : exportLoop e.embeddings e.cache [] with
    | inl u =>
      rw [hel] at hexp
      exact absurd hexp (by simp)
    | inr d' =>
      rw [hel] at hexp
      have hdd : d' = d := by
        have hexp2 : ExportResult.written d' = ExportResult.written d := hexp
        injection hexp2
      rw [hdd] at hel
      rcases exportLoop_values e.embeddings e.cache [] d hel w v hw with hm | hnil
      · refine ⟨hm, ?_⟩
        cases d with
        | nil =>
          rw [dictGet] at hw
          cases hw
        | cons p rest =>
          obtain ⟨k, vv⟩ := p
          refine ⟨_, rfl, ?_⟩
          show dictGet ((k, vv) :: rest) w = some v
          exact hw
      · rw [dictGet] at hnil
        cases hnil

/-- C6 witness: export a one-word cache and reload it. -/
theorem cache_export_roundtrip_witness :
    dictGet (FTEncoder.mk [("a", [(1 : Int)]), ("b", [2])] ["a", "b"] 1 true
      ["a"]).embeddings "a" = some [1] ∧
    ∃ c, FTCachedEncoder.init [("a", [(1 : Int)])] = some c ∧
      c.embed_word "a" = some [1] :=
  cache_export_roundtrip
    (FTEncoder.mk [("a", [(1 : Int)]), ("b", [2])] ["a", "b"] 1 true ["a"])
    [("a", [(1 : Int)])] (by decide) "a" [1] (by decide)

/-- C4: whenever `encode_dataset` succeeds, the result mapping's keys are
exactly `train, dev, standard` when `encode_test` is false (no `test` key),
and exactly `train, dev, test, standard` when `encode_test` is true. -/
theorem encode_dataset_keys {V : Type _} (enc : List String → List V)
    (pre : String → List String) (ds : Dataset) (ind : SlangInd) :
    (∀ res, encode_dataset enc pre ds ind false = some res →
      res.map Prod.fst = ["train", "dev", "standard"]) ∧
    (∀ res, encode_dataset enc pre ds ind true = some res →
      res.map Prod.fst = ["train", "dev", "test", "standard"]) := by
  constructor
  · intro res h
    obtain ⟨trs, dvs, tp, std, _, _, htp, _, hres⟩ :=
      encode_dataset_destruct enc pre ds ind false res h
    rw [if_neg Bool.false_ne_true] at htp
    subst htp
    subst hres
    rfl
  · intro res h
    obtain ⟨trs, dvs, tp, std, _, _, htp, _, hres⟩ :=
      encode_dataset_destruct enc pre ds ind true res h
    rw [if_pos rfl] at htp
    obtain ⟨ts, _, htp⟩ := htp
    subst htp
    subst hres
    rfl

/-- C4 witness: the concrete dataset `dsW` with both `encode_test` values. -/
theorem encode_dataset_keys_witness :
    ([("train", [(0 : Nat)]), ("dev", [0]), ("standard", [0, 0])].map Prod.fst
      = ["train", "dev", "standard"]) ∧
    ([("train", [(0 : Nat)]), ("dev", [0]), ("test", [0]),
      ("standard", [0, 0])].map Prod.fst
      = ["train", "dev", "test", "standard"]) :=
  ⟨(encode_dataset_keys encW preW dsW indW).1
      [("train", [0]), ("dev", [0]), ("standard", [0, 0])] rfl,
   (encode_dataset_keys encW preW dsW indW).2
      [("train", [0]), ("dev", [0]), ("test", [0]), ("standard", [0, 0])] rfl⟩

/-- C5: whenever `encode_dataset` succeeds and `encode_sentences` returns
one vector per input sentence, the `standard` split is the encoding of the
flattened definition texts taken in vocabulary order and, within each word,
in stored definition order, so its vector count is the total number of
definition entries over all vocabulary words. -/
theorem encode_dataset_standard_split {V : Type _}
    (enc : List String → List V) (pre : String → List String) (ds : Dataset)
    (ind : SlangInd) (b : Bool) (res : List (String × List V))
    (hres : encode_dataset enc pre ds ind b = some res)
    (hlen : ∀ l, (enc l).length = l.length) :
    ∃ sents, standardSents pre ds ds.vocab = some sents ∧
      sents = ds.vocab.flatMap (fun w =>
        ((dictGet ds.conv_data w).getD ⟨[]⟩).definitions.map
          (fun d => joinPre pre d.defn)) ∧
      dictGet res "standard" = some (enc sents) ∧
      (enc sents).length = (ds.vocab.map (fun w =>
        ((dictGet ds.conv_data w).getD ⟨[]⟩).definitions.length)).sum := by
  obtain ⟨trs, dvs, tp, std, _, _, htp, hstd, hres'⟩ :=
    encode_dataset_destruct enc pre ds ind b res hres
  refine ⟨std, hstd, standardSents_eq pre ds ds.vocab std hstd, ?_, ?_⟩
  · subst hres'
    cases b with
    | false =>
      rw [if_neg Bool.false_ne_true] at htp
      subst htp
      simp [dictGet]
    | true =>
      rw [if_pos rfl] at htp
      obtain ⟨ts, _, htp⟩ := htp
      subst htp
      simp [dictGet]
  · rw [hlen, standardSents_eq pre ds ds.vocab std hstd, length_flatMap_defs]

/-- C5 witness: on `dsW` the standard split has one vector per definition
record of the single vocabulary word. -/
theorem encode_dataset_standard_split_witness :
    ∃ sents, standardSents preW dsW dsW.vocab = some sents ∧
      sents = dsW.vocab.flatMap (fun w =>
        ((dictGet dsW.conv_data w).getD ⟨[]⟩).definitions.map
          (fun d => joinPre preW d.defn)) ∧
      dictGet [("train", [(0 : Nat)]), ("dev", [0]), ("standard", [0, 0])]
        "standard" = some (encW sents) ∧
      (encW sents).length = (dsW.vocab.map (fun w =>
        ((dictGet dsW.conv_data w).getD ⟨[]⟩).definitions.length)).sum :=
  encode_dataset_standard_split encW preW dsW indW false
    [("train", [0]), ("dev", [0]), ("standard", [0, 0])] rfl
    (by intro l; simp [encW])
